import Mathlib

/-!
# Verification of the `threadCreator` segmenter

Shallow embedding of `src/main.ts`: the tweet segmenter `createTweets`,
its helper `splitLongWord`, and `sanitizeFileName`.  Strings are modelled
as `List Char`; the JavaScript regular expressions involved
(`/\s+/` for splitting, `/[.!?]$/` for the sentence-terminator test,
`/[\\\/:*?"<>|]/g` for filename sanitization) are modelled character by
character.
-/

namespace ThreadCreator

/-- Whitespace test, modelling the JS regex class `\s` on the ASCII
whitespace characters (space, tab, newline, carriage return, vertical
tab, form feed). -/
def isWS (c : Char) : Bool :=
  c = ' ' || c = '\t' || c = '\n' || c = '\r' || c = '\x0b' || c = '\x0c'

/-- Scanner for JS `content.split(/\s+/)`.

The accumulator is `some acc` while a field is being built (`acc` holds the
field's characters in reverse) and `none` while a maximal whitespace run is
being skipped.  This reproduces JS `split` semantics exactly: a leading
whitespace run yields a leading empty field, a trailing run a trailing
empty field, and `"".split(/\s+/)` yields `[""]`. -/
def splitWSAux : List Char → Option (List Char) → List (List Char)
  | [], none => [[]]
  | [], some acc => [acc.reverse]
  | c :: cs, none =>
      if isWS c then splitWSAux cs none else splitWSAux cs (some [c])
  | c :: cs, some acc =>
      if isWS c then acc.reverse :: splitWSAux cs none
      else splitWSAux cs (some (c :: acc))

/-- Model of `content.split(/\s+/)` from `createTweets` (src/main.ts:131). -/
def splitWS (s : List Char) : List (List Char) :=
  splitWSAux s (some [])

/-- Model of `wordsArray.join(" ")` — the `buildTweet` helper (src/main.ts:139). -/
def joinWords : List (List Char) → List Char
  | [] => []
  | [w] => w
  | w :: v :: ws => w ++ ' ' :: joinWords (v :: ws)

/-- JS `String.prototype.trim()` on the model's character lists. -/
def trim (s : List Char) : List Char :=
  ((s.dropWhile isWS).reverse.dropWhile isWS).reverse

/-- The JS regex test `/[.!?]$/.test(word)` (src/main.ts:151). -/
def endsWithTerminal (w : List Char) : Bool :=
  match w.getLast? with
  | some c => c = '.' || c = '!' || c = '?'
  | none => false

/-- One iteration bound for the slicing loop of `splitLongWord`:
with `maxLength ≥ 1` the loop runs at most `word.length` times, so the
word's length is enough fuel for the structural recursion. -/
def splitLongWordAux : Nat → List Char → Nat → List (List Char)
  | 0, _, _ => []
  | _ + 1, [], _ => []
  | n + 1, c :: cs, maxLength =>
      (c :: cs).take maxLength :: splitLongWordAux n ((c :: cs).drop maxLength) maxLength

/-- Model of `splitLongWord` (src/main.ts:221-229): repeatedly pushes
`word.slice(start, start + maxLength)` while `start < word.length`,
advancing `start` by `maxLength`.  (For `maxLength = 0` the JS loop never
terminates; the model is only meaningful under the documented
precondition `maxLength ≥ 1`, where `word.length` iterations always
suffice.) -/
def splitLongWord (word : List Char) (maxLength : Nat) : List (List Char) :=
  splitLongWordAux word.length word maxLength

/-- The mutable state of `createTweets`' `forEach` loop:
`tweets` (emitted chunks), `currentWords` (the candidate buffer) and
`lastSentenceBreak` (index of the last buffered word ending in `.`, `!`
or `?`, or `-1`). -/
structure TState where
  tweets : List (List Char)
  currentWords : List (List Char)
  lastSentenceBreak : Int

/-- The flush-then-emit step shared by every non-merged part of a split
long word (src/main.ts:189-194): flush `currentWords` as a trimmed chunk
if non-empty, then push the part as its own chunk (untrimmed). -/
def flushPush (st : TState) (part : List Char) : TState :=
  let st1 :=
    if st.currentWords ≠ [] then
      { st with tweets := st.tweets ++ [trim (joinWords st.currentWords)],
                currentWords := [] }
    else st
  { st1 with tweets := st1.tweets ++ [part] }

/-- The body of `parts.forEach((part, idx) => ...)` (src/main.ts:177-195):
only the first part may merge into a non-empty buffer, and only when the
merged candidate fits. -/
def processPart (m : Nat) (st : TState) (idx : Nat) (part : List Char) : TState :=
  if idx = 0 ∧ st.currentWords ≠ [] then
    let candidate := joinWords (st.currentWords ++ [part])
    if candidate.length ≤ m then
      { st with
        currentWords := st.currentWords ++ [part],
        lastSentenceBreak :=
          if endsWithTerminal part then (st.currentWords.length : Int)
          else st.lastSentenceBreak }
    else flushPush st part
  else flushPush st part

/-- Model of `parts.forEach` with its running index. -/
def processParts (m : Nat) (st : TState) (idx : Nat) : List (List Char) → TState
  | [] => st
  | p :: ps => processParts m (processPart m st idx p) (idx + 1) ps

/-- The overflow flush (src/main.ts:155-172): cut at the sentence break
when one is recorded (the remainder after the break carries over),
otherwise flush the whole non-empty buffer; reset the marker. -/
def flushOverflow (st : TState) : TState :=
  if st.lastSentenceBreak ≠ -1 then
    { tweets := st.tweets ++
        [trim (joinWords (st.currentWords.take (st.lastSentenceBreak.toNat + 1)))],
      currentWords := st.currentWords.drop (st.lastSentenceBreak.toNat + 1),
      lastSentenceBreak := -1 }
  else if st.currentWords ≠ [] then
    { tweets := st.tweets ++ [trim (joinWords st.currentWords)],
      currentWords := [],
      lastSentenceBreak := -1 }
  else
    { st with lastSentenceBreak := -1 }

/-- The body of `words.forEach((word) => ...)` (src/main.ts:142-204). -/
def stepWord (m : Nat) (st : TState) (word : List Char) : TState :=
  if (joinWords (st.currentWords ++ [word])).length ≤ m then
    { st with
      currentWords := st.currentWords ++ [word],
      lastSentenceBreak :=
        if endsWithTerminal word then ((st.currentWords ++ [word]).length : Int) - 1
        else st.lastSentenceBreak }
  else if word.length > m then
    processParts m (flushOverflow st) 0 (splitLongWord word m)
  else
    { flushOverflow st with
      currentWords := (flushOverflow st).currentWords ++ [word],
      lastSentenceBreak :=
        if endsWithTerminal word then ((flushOverflow st).currentWords.length : Int)
        else (flushOverflow st).lastSentenceBreak }

/-- Model of `createTweets` (src/main.ts:129-212). -/
def createTweets (content : List Char) (m : Nat) : List (List Char) :=
  let words := splitWS content
  let final := words.foldl (stepWord m) ⟨[], [], -1⟩
  if final.currentWords ≠ [] then
    final.tweets ++ [trim (joinWords final.currentWords)]
  else final.tweets

/-- The nine characters removed by `sanitizeFileName`'s regex
`/[\\\/:*?"<>|]/g` (src/main.ts:236-238). -/
def illegalChar (c : Char) : Bool :=
  c = '\\' || c = '/' || c = ':' || c = '*' || c = '?' || c = '\"' ||
  c = '<' || c = '>' || c = '|'

/-- Model of `sanitizeFileName` (src/main.ts:236-238): a global single-character
regex replacement by the empty string is exactly a filter. -/
def sanitizeFileName (name : List Char) : List Char :=
  name.filter (fun c => !(illegalChar c))

/-- Convenience: a Lean string literal as the character list it denotes. -/
def str (s : String) : List Char := s.data

/-- Step-indexed model of the `while (start < word.length)` loop of
`splitLongWord` (src/main.ts:224-227), executing at most `fuel`
iterations; `none` means the fuel ran out before the loop condition
became false. -/
def slwLoop (fuel : Nat) (word : List Char) (m : Nat) (start : Nat)
    (parts : List (List Char)) : Option (List (List Char)) :=
  match fuel with
  | 0 => none
  | fuel + 1 =>
      if start < word.length then
        slwLoop fuel word m (start + m) (parts ++ [(word.drop start).take m])
      else some parts

/-- The words of a text in the sense of the specification: its maximal
non-whitespace runs, in order.  Equivalently, the JS split fields with
the boundary empty fields removed. -/
def wordsOf (s : List Char) : List (List Char) :=
  (splitWS s).filter (fun w => !w.isEmpty)

/-- A character list containing no (JS `\s`) whitespace. -/
def wsFree (w : List Char) : Prop :=
  ∀ c ∈ w, isWS c = false

/-- A chunk that is exactly the single-space join of its (non-zero
number of) words: internal separators are single spaces and there is no
boundary whitespace. -/
def GoodChunk (t : List Char) : Prop :=
  wordsOf t ≠ [] ∧ joinWords (wordsOf t) = t

/-- A chunk that neither begins nor ends with a whitespace character. -/
def noBoundaryWS (t : List Char) : Prop :=
  (∀ c, t.head? = some c → isWS c = false) ∧
  (∀ c, t.getLast? = some c → isWS c = false)

/-- Invariant of the word fold in the no-long-word, trimmed-input
setting: every emitted chunk is good, the buffer holds non-empty
whitespace-free words, the chunks' words followed by the buffer account
exactly for the words processed so far (`P`), and a live sentence-break
marker indexes into the buffer. -/
def InvB (st : TState) (P : List (List Char)) : Prop :=
  (∀ t ∈ st.tweets, GoodChunk t) ∧
  (∀ w ∈ st.currentWords, w ≠ [] ∧ wsFree w) ∧
  ((st.tweets.map wordsOf).flatten ++ st.currentWords = P) ∧
  (st.lastSentenceBreak ≠ -1 → st.lastSentenceBreak.toNat < st.currentWords.length)

section BasicLemmas

theorem getLast?_cons_ne_nil {α : Type _} (a : α) {l : List α} (h : l ≠ []) :
    (a :: l).getLast? = l.getLast? := by
  cases l with
  | nil => exact absurd rfl h
  | cons b l' => exact List.getLast?_cons_cons

theorem splitLongWordAux_nil (n m : Nat) : splitLongWordAux n [] m = [] := by
  cases n <;> rfl

theorem splitLongWordAux_fuel_irrel (m : Nat) (hm : 1 ≤ m) :
    ∀ (n n' : Nat) (w : List Char), w.length ≤ n → w.length ≤ n' →
      splitLongWordAux n w m = splitLongWordAux n' w m := by
  intro n
  induction n with
  | zero =>
      intro n' w hw _
      have : w = [] := List.eq_nil_of_length_eq_zero (Nat.le_zero.mp hw)
      subst this
      simp [splitLongWordAux_nil]
  | succ n ih =>
      intro n' w hw hw'
      cases w with
      | nil => simp [splitLongWordAux_nil]
      | cons c cs =>
          cases n' with
          | zero => simp at hw'
          | succ k =>
              simp only [splitLongWordAux]
              have hd : ((c :: cs).drop m).length = (c :: cs).length - m :=
                List.length_drop m (c :: cs)
              have hlen : ((c :: cs).drop m).length ≤ n := by omega
              have hlen' : ((c :: cs).drop m).length ≤ k := by omega
              rw [ih k _ hlen hlen']

theorem splitLongWordAux_spec (m : Nat) (hm : 1 ≤ m) :
    ∀ (n : Nat) (w : List Char), w.length ≤ n →
      (splitLongWordAux n w m).flatten = w ∧
      (∀ p ∈ (splitLongWordAux n w m).dropLast, p.length = m) ∧
      (∀ p, (splitLongWordAux n w m).getLast? = some p →
        1 ≤ p.length ∧ p.length ≤ m) := by
  intro n
  induction n with
  | zero =>
      intro w hw
      have : w = [] := List.eq_nil_of_length_eq_zero (Nat.le_zero.mp hw)
      subst this
      simp [splitLongWordAux_nil]
  | succ n ih =>
      intro w hw
      cases w with
      | nil => simp [splitLongWordAux_nil]
      | cons c cs =>
          simp only [splitLongWordAux]
          have hld : ((c :: cs).drop m).length = (c :: cs).length - m :=
            List.length_drop m (c :: cs)
          have hdrop : ((c :: cs).drop m).length ≤ n := by omega
          obtain ⟨ihj, ihd, ihl⟩ := ih _ hdrop
          by_cases hle : (c :: cs).length ≤ m
          · have hdnil : (c :: cs).drop m = [] := List.drop_eq_nil_of_le hle
            have htake : (c :: cs).take m = c :: cs := List.take_of_length_le hle
            rw [hdnil, splitLongWordAux_nil, htake]
            refine ⟨by simp, by simp, ?_⟩
            intro p hp
            simp only [List.getLast?_singleton, Option.some.injEq] at hp
            subst hp
            constructor
            · simp
            · exact hle
          · push_neg at hle
            have hdne : (c :: cs).drop m ≠ [] := by
              intro hnil
              have := congrArg List.length hnil
              simp only [List.length_drop, List.length_nil] at this
              omega
            have hauxne : splitLongWordAux n ((c :: cs).drop m) m ≠ [] := by
              intro hnil
              rw [hnil] at ihj
              simp only [List.flatten_nil] at ihj
              exact hdne ihj.symm
            refine ⟨?_, ?_, ?_⟩
            · simp only [List.flatten_cons, ihj]
              exact List.take_append_drop m (c :: cs)
            · intro p hp
              rw [List.dropLast_cons_of_ne_nil hauxne] at hp
              rcases List.mem_cons.mp hp with h | h
              · subst h
                rw [List.length_take]
                exact Nat.min_eq_left (by omega)
              · exact ihd p h
            · intro p hp
              rw [getLast?_cons_ne_nil _ hauxne] at hp
              exact ihl p hp

end BasicLemmas

/-- C1: the length invariant fails on the code.  With `maxLength = 10`
and input `"abc. defgh wxyzuv"`, the overflow at `"wxyzuv"` cuts at the
sentence break `"abc."`, carries `"defgh"` over, and then appends
`"wxyzuv"` to the carried-over buffer without re-checking the length
(src/main.ts:196-202); the final chunk `"defgh wxyzuv"` has 12 > 10
characters. -/
theorem c1_length_invariant_fails :
    createTweets (str "abc. defgh wxyzuv") 10 = [str "abc.", str "defgh wxyzuv"] ∧
    ¬ (∀ t ∈ createTweets (str "abc. defgh wxyzuv") 10, t.length ≤ 10) := by
  decide

/-- C3: on the empty input the code returns a one-element list holding
the empty chunk, not the empty sequence: JS `"".split(/\s+/)` is `[""]`,
the empty word is buffered, and the final flush emits it
(src/main.ts:131, 207-209). -/
theorem c3_empty_input_bug :
    createTweets (str "") 250 = [str ""] ∧
    createTweets (str "") 250 ≠ [] ∧
    createTweets (str "   ") 250 = [str ""] := by
  decide

/-- C4: the sentence-boundary scenario. `createTweets "Hi there. Bye now." 10`
is exactly `["Hi there.", "Bye now."]`. -/
theorem c4_sentence_boundary_scenario :
    createTweets (str "Hi there. Bye now.") 10 = [str "Hi there.", str "Bye now."] := by
  decide

/-- C5: the over-long single word scenario.
`createTweets "Supercalifragilistic" 5` is exactly
`["Super", "calif", "ragil", "istic"]`, four standalone chunks of
length 5. -/
theorem c5_long_word_scenario :
    createTweets (str "Supercalifragilistic") 5 =
      [str "Super", str "calif", str "ragil", str "istic"] ∧
    ∀ t ∈ createTweets (str "Supercalifragilistic") 5, t.length = 5 := by
  decide

/-- C7: `splitLongWord` produces the consecutive fixed-width slices of
the word, left to right: every part except possibly the last has length
exactly `maxLength`, the last part (when the word is non-empty) has
length between 1 and `maxLength`, and the parts concatenate back to the
word. -/
theorem c7_splitLongWord_slices (w : List Char) (m : Nat) (hm : 1 ≤ m) :
    (splitLongWord w m).flatten = w ∧
    (∀ p ∈ (splitLongWord w m).dropLast, p.length = m) ∧
    (∀ p, (splitLongWord w m).getLast? = some p → 1 ≤ p.length ∧ p.length ≤ m) :=
  splitLongWordAux_spec m hm w.length w le_rfl

/-- Witness for C7 at `w = "abcdefg"`, `maxLength = 3`. -/
theorem c7_witness :
    (splitLongWord (str "abcdefg") 3).flatten = str "abcdefg" ∧
    (∀ p ∈ (splitLongWord (str "abcdefg") 3).dropLast, p.length = 3) ∧
    (∀ p, (splitLongWord (str "abcdefg") 3).getLast? = some p →
      1 ≤ p.length ∧ p.length ≤ 3) :=
  c7_splitLongWord_slices (str "abcdefg") 3 (by decide)

theorem splitLongWord_cons (c : Char) (cs : List Char) (m : Nat) (hm : 1 ≤ m) :
    splitLongWord (c :: cs) m =
      (c :: cs).take m :: splitLongWord ((c :: cs).drop m) m := by
  rw [splitLongWord, splitLongWord]
  simp only [List.length_cons, splitLongWordAux]
  congr 1
  apply splitLongWordAux_fuel_irrel m hm
  · have h1 : ((c :: cs).drop m).length = (c :: cs).length - m :=
      List.length_drop m (c :: cs)
    have h2 : (c :: cs).length = cs.length + 1 := rfl
    omega
  · exact le_rfl

theorem slwLoop_spec (m : Nat) (hm : 1 ≤ m) :
    ∀ (fuel : Nat) (word : List Char) (start : Nat) (parts : List (List Char)),
      word.length - start < fuel →
      slwLoop fuel word m start parts =
        some (parts ++ splitLongWord (word.drop start) m) := by
  intro fuel
  induction fuel with
  | zero => intro word start parts h; omega
  | succ fuel ih =>
      intro word start parts h
      simp only [slwLoop]
      by_cases hlt : start < word.length
      · rw [if_pos hlt]
        rw [ih word (start + m) (parts ++ [(word.drop start).take m]) (by omega)]
        congr 1
        rw [List.append_assoc]
        congr 1
        have hdne : word.drop start ≠ [] := by
          intro hnil
          have := congrArg List.length hnil
          simp only [List.length_drop, List.length_nil] at this
          omega
        obtain ⟨c, cs, hd⟩ := List.exists_cons_of_ne_nil hdne
        have hdd : (word.drop start).drop m = word.drop (start + m) := by
          rw [List.drop_drop]
        have key : splitLongWord (word.drop start) m =
            (word.drop start).take m :: splitLongWord (word.drop (start + m)) m := by
          rw [hd, splitLongWord_cons c cs m hm, ← hd, hdd]
        rw [key, List.singleton_append]
      · rw [if_neg hlt]
        have : word.drop start = [] := List.drop_eq_nil_of_le (by omega)
        rw [this]
        simp [splitLongWord, splitLongWordAux_nil]

/-- C8: the slicing loop of `splitLongWord` terminates.  Because the
start index strictly increases by `maxLength ≥ 1` on every iteration,
`word.length + 1` loop steps always suffice: the step-indexed loop model
finishes (returns `some`) and computes exactly `splitLongWord`.  The
rest of `createTweets` is a single pass over the finite word list, total
by construction in this embedding. -/
theorem c8_slicing_loop_terminates (word : List Char) (m : Nat) (hm : 1 ≤ m) :
    slwLoop (word.length + 1) word m 0 [] = some (splitLongWord word m) := by
  have h := slwLoop_spec m hm (word.length + 1) word 0 [] (by omega)
  simpa using h

/-- Witness for C8 at `word = "abcd"`, `maxLength = 3`. -/
theorem c8_witness :
    slwLoop ((str "abcd").length + 1) (str "abcd") 3 0 [] =
      some (splitLongWord (str "abcd") 3) :=
  c8_slicing_loop_terminates (str "abcd") 3 (by decide)

/-- C9: `sanitizeFileName` removes exactly the characters
`\ / : * ? " < > |`: the result is the input filtered to the legal
characters, hence contains no illegal character, is a subsequence of the
input, and keeps every occurrence of every legal character. -/
theorem c9_sanitizeFileName_spec (name : List Char) :
    sanitizeFileName name = name.filter (fun c => !(illegalChar c)) ∧
    (∀ c ∈ sanitizeFileName name, illegalChar c = false) ∧
    List.Sublist (sanitizeFileName name) name ∧
    (∀ c, illegalChar c = false → (sanitizeFileName name).count c = name.count c) := by
  refine ⟨rfl, ?_, List.filter_sublist name, ?_⟩
  · intro c hc
    have h := List.of_mem_filter hc
    simpa using h
  · intro c hc
    rw [sanitizeFileName, List.count_filter (by simp [hc])]

section SplitLemmas

theorem splitWSAux_ne_nil : ∀ (s : List Char) (acc : Option (List Char)),
    splitWSAux s acc ≠ [] := by
  intro s
  induction s with
  | nil => intro acc; cases acc <;> simp [splitWSAux]
  | cons c cs ih =>
      intro acc
      cases acc with
      | none => cases h : isWS c <;> simp [splitWSAux, h, ih]
      | some a => cases h : isWS c <;> simp [splitWSAux, h, ih]

theorem splitWSAux_wsFree :
    ∀ (s : List Char) (acc : Option (List Char)),
      (∀ a, acc = some a → ∀ c ∈ a, isWS c = false) →
      ∀ w ∈ splitWSAux s acc, wsFree w := by
  intro s
  induction s with
  | nil =>
      intro acc hacc w hw
      cases acc with
      | none =>
          simp only [splitWSAux, List.mem_singleton] at hw
          subst hw
          intro c hc
          simp at hc
      | some a =>
          simp only [splitWSAux, List.mem_singleton] at hw
          subst hw
          intro c hc
          exact hacc a rfl c (List.mem_reverse.mp hc)
  | cons c cs ih =>
      intro acc hacc w hw
      cases acc with
      | none =>
          cases h : isWS c with
          | true =>
              simp only [splitWSAux, h, if_true] at hw
              exact ih none (by simp) w hw
          | false =>
              simp only [splitWSAux, h, Bool.false_eq_true, if_false] at hw
              refine ih (some [c]) ?_ w hw
              intro a ha d hd
              cases ha
              simp only [List.mem_singleton] at hd
              subst hd
              exact h
      | some a =>
          cases h : isWS c with
          | true =>
              simp only [splitWSAux, h, if_true, List.mem_cons] at hw
              rcases hw with hw | hw
              · subst hw
                intro d hd
                exact hacc a rfl d (List.mem_reverse.mp hd)
              · exact ih none (by simp) w hw
          | false =>
              simp only [splitWSAux, h, Bool.false_eq_true, if_false] at hw
              refine ih (some (c :: a)) ?_ w hw
              intro b hb d hd
              cases hb
              rcases List.mem_cons.mp hd with hd | hd
              · subst hd; exact h
              · exact hacc a rfl d hd

theorem splitWS_wsFree (s : List Char) : ∀ w ∈ splitWS s, wsFree w :=
  splitWSAux_wsFree s (some []) (by intro a ha c hc; cases ha; simp at hc)

theorem wordsOf_wsFree (s : List Char) : ∀ w ∈ wordsOf s, wsFree w := by
  intro w hw
  exact splitWS_wsFree s w (List.mem_of_mem_filter hw)

theorem splitWSAux_nonws_prefix :
    ∀ (w : List Char), wsFree w → ∀ (s : List Char) (a : List Char),
      splitWSAux (w ++ s) (some a) = splitWSAux s (some (w.reverse ++ a)) := by
  intro w
  induction w with
  | nil => intro _ s a; simp
  | cons c w' ih =>
      intro hw s a
      have hc : isWS c = false := hw c (List.mem_cons_self c w')
      have hw' : wsFree w' := fun d hd => hw d (List.mem_cons_of_mem c hd)
      have e1 : (c :: w') ++ s = c :: (w' ++ s) := rfl
      rw [e1]
      have e2 : splitWSAux (c :: (w' ++ s)) (some a) = splitWSAux (w' ++ s) (some (c :: a)) := by
        simp [splitWSAux, hc]
      rw [e2, ih hw' s (c :: a)]
      simp [List.append_assoc]

theorem splitWS_of_wsFree (s : List Char) (hs : wsFree s) : splitWS s = [s] := by
  have h := splitWSAux_nonws_prefix s hs [] []
  simpa [splitWS, splitWSAux] using h

theorem splitWS_word_space (w : List Char) (hw : wsFree w) (s : List Char) :
    splitWS (w ++ ' ' :: s) = w :: splitWSAux s none := by
  rw [splitWS, splitWSAux_nonws_prefix w hw (' ' :: s) []]
  simp [splitWSAux, isWS]

theorem filter_splitWSAux_none (s : List Char) :
    (splitWSAux s none).filter (fun w => !w.isEmpty) = wordsOf s := by
  induction s with
  | nil => simp [splitWSAux, wordsOf, splitWS]
  | cons c cs ih =>
      cases h : isWS c with
      | true =>
          simp only [wordsOf, splitWS, splitWSAux, h, if_true]
          simp [List.filter_cons]
      | false =>
          have e : splitWSAux (c :: cs) none = splitWSAux cs (some [c]) := by
            simp [splitWSAux, h]
          have e2 : splitWS (c :: cs) = splitWSAux cs (some [c]) := by
            simp [splitWS, splitWSAux, h]
          rw [wordsOf, e, e2]

theorem wordsOf_dropWhile_isWS (s : List Char) :
    wordsOf (s.dropWhile isWS) = wordsOf s := by
  induction s with
  | nil => simp
  | cons c cs ih =>
      cases h : isWS c with
      | true =>
          rw [List.dropWhile_cons, if_pos (by simp [h])]
          rw [ih]
          simp only [wordsOf, splitWS, splitWSAux, h, if_true, List.reverse_nil]
          rw [List.filter_cons]
          simp only [List.isEmpty_nil, Bool.not_true, Bool.false_eq_true, if_false]
          rw [filter_splitWSAux_none]
          rfl
      | false =>
          rw [List.dropWhile_cons, if_neg (by simp [h])]

theorem filter_splitWSAux_allWS_none (u : List Char) (hu : ∀ c ∈ u, isWS c = true) :
    (splitWSAux u none).filter (fun w => !w.isEmpty) = [] := by
  induction u with
  | nil => simp [splitWSAux]
  | cons c u' ih =>
      have hc : isWS c = true := hu c (List.mem_cons_self c u')
      have hu' : ∀ d ∈ u', isWS d = true := fun d hd => hu d (List.mem_cons_of_mem c hd)
      simp only [splitWSAux, hc, if_true]
      exact ih hu'

theorem filter_splitWSAux_allWS_some (u : List Char) (hu : ∀ c ∈ u, isWS c = true)
    (a : List Char) :
    (splitWSAux u (some a)).filter (fun w => !w.isEmpty) =
      [a.reverse].filter (fun w => !w.isEmpty) := by
  cases u with
  | nil => rfl
  | cons c u' =>
      have hc : isWS c = true := hu c (List.mem_cons_self c u')
      have hu' : ∀ d ∈ u', isWS d = true := fun d hd => hu d (List.mem_cons_of_mem c hd)
      simp only [splitWSAux, hc, if_true]
      rw [List.filter_cons, List.filter_cons, filter_splitWSAux_allWS_none u' hu']
      cases hb : (!a.reverse.isEmpty) <;> simp [hb]

theorem filter_splitWSAux_append_ws :
    ∀ (s : List Char) (acc : Option (List Char)) (u : List Char),
      (∀ c ∈ u, isWS c = true) →
      (splitWSAux (s ++ u) acc).filter (fun w => !w.isEmpty) =
        (splitWSAux s acc).filter (fun w => !w.isEmpty) := by
  intro s
  induction s with
  | nil =>
      intro acc u hu
      cases acc with
      | none => rw [List.nil_append, filter_splitWSAux_allWS_none u hu]; rfl
      | some a => rw [List.nil_append, filter_splitWSAux_allWS_some u hu a]; rfl
  | cons c cs ih =>
      intro acc u hu
      have e0 : (c :: cs) ++ u = c :: (cs ++ u) := rfl
      rw [e0]
      cases acc with
      | none =>
          cases h : isWS c with
          | true =>
              simp only [splitWSAux, h, if_true]
              exact ih none u hu
          | false =>
              simp only [splitWSAux, h, Bool.false_eq_true, if_false]
              exact ih (some [c]) u hu
      | some a =>
          cases h : isWS c with
          | true =>
              simp only [splitWSAux, h, if_true]
              rw [List.filter_cons, List.filter_cons, ih none u hu]
          | false =>
              simp only [splitWSAux, h, Bool.false_eq_true, if_false]
              exact ih (some (c :: a)) u hu

theorem wordsOf_append_ws (s u : List Char) (hu : ∀ c ∈ u, isWS c = true) :
    wordsOf (s ++ u) = wordsOf s := by
  rw [wordsOf, wordsOf, splitWS, splitWS]
  exact filter_splitWSAux_append_ws s (some []) u hu

theorem wordsOf_trim (s : List Char) : wordsOf (trim s) = wordsOf s := by
  have hsplit : trim s ++ ((s.dropWhile isWS).reverse.takeWhile isWS).reverse
      = s.dropWhile isWS := by
    rw [trim, ← List.reverse_append, List.takeWhile_append_dropWhile, List.reverse_reverse]
  have hy : ∀ c ∈ ((s.dropWhile isWS).reverse.takeWhile isWS).reverse, isWS c = true := by
    intro c hc
    exact List.mem_takeWhile_imp (List.mem_reverse.mp hc)
  calc wordsOf (trim s)
      = wordsOf (trim s ++ ((s.dropWhile isWS).reverse.takeWhile isWS).reverse) :=
        (wordsOf_append_ws _ _ hy).symm
    _ = wordsOf (s.dropWhile isWS) := by rw [hsplit]
    _ = wordsOf s := wordsOf_dropWhile_isWS s

end SplitLemmas

section JoinTrimLemmas

theorem joinWords_cons (x : List Char) (xs : List (List Char)) :
    ∃ r, joinWords (x :: xs) = x ++ r := by
  cases xs with
  | nil => exact ⟨[], by simp [joinWords]⟩
  | cons y ys => exact ⟨' ' :: joinWords (y :: ys), rfl⟩

theorem wordsOf_joinWords (l : List (List Char)) (hl : ∀ w ∈ l, wsFree w) :
    wordsOf (joinWords l) = l.filter (fun w => !w.isEmpty) := by
  induction l with
  | nil => simp [joinWords, wordsOf, splitWS, splitWSAux]
  | cons w tail ih =>
      cases tail with
      | nil =>
          have hw : wsFree w := hl w (List.mem_cons_self _ _)
          show wordsOf w = [w].filter (fun w => !w.isEmpty)
          rw [wordsOf, splitWS_of_wsFree w hw]
      | cons v vs =>
          have hw : wsFree w := hl w (List.mem_cons_self _ _)
          have htail : ∀ x ∈ v :: vs, wsFree x := fun x hx => hl x (List.mem_cons_of_mem _ hx)
          have e : joinWords (w :: v :: vs) = w ++ ' ' :: joinWords (v :: vs) := rfl
          rw [e, wordsOf, splitWS_word_space w hw, List.filter_cons,
            filter_splitWSAux_none, ih htail]
          simp [List.filter_cons]

theorem splitWSAux_none_eq_splitWS (c : Char) (j : List Char) (hc : isWS c = false) :
    splitWSAux (c :: j) none = splitWS (c :: j) := by
  simp [splitWSAux, splitWS, hc]

theorem splitWS_joinWords (l : List (List Char)) (hne : l ≠ [])
    (hl : ∀ w ∈ l, w ≠ [] ∧ wsFree w) : splitWS (joinWords l) = l := by
  induction l with
  | nil => exact absurd rfl hne
  | cons w tail ih =>
      cases tail with
      | nil => exact splitWS_of_wsFree w (hl w (List.mem_cons_self _ _)).2
      | cons v vs =>
          have hw := hl w (List.mem_cons_self _ _)
          have htail : ∀ x ∈ v :: vs, x ≠ [] ∧ wsFree x :=
            fun x hx => hl x (List.mem_cons_of_mem _ hx)
          have hv := htail v (List.mem_cons_self _ _)
          have e : joinWords (w :: v :: vs) = w ++ ' ' :: joinWords (v :: vs) := rfl
          rw [e, splitWS_word_space w hw.2]
          congr 1
          obtain ⟨r, hr⟩ := joinWords_cons v vs
          obtain ⟨d, v', hd⟩ := List.exists_cons_of_ne_nil hv.1
          have hdw : isWS d = false := hv.2 d (by rw [hd]; exact List.mem_cons_self _ _)
          have e2 : joinWords (v :: vs) = d :: (v' ++ r) := by
            rw [hr, hd]; rfl
          rw [e2, splitWSAux_none_eq_splitWS d _ hdw, ← e2]
          exact ih (by simp) htail

theorem joinWords_ne_nil (l : List (List Char)) (hne : l ≠ [])
    (hl : ∀ w ∈ l, w ≠ []) : joinWords l ≠ [] := by
  cases l with
  | nil => exact absurd rfl hne
  | cons w tail =>
      obtain ⟨r, hr⟩ := joinWords_cons w tail
      rw [hr]
      have hw : w ≠ [] := hl w (List.mem_cons_self _ _)
      cases w with
      | nil => exact absurd rfl hw
      | cons c w' => simp

theorem joinWords_head? (w : List Char) (tail : List (List Char)) (hw : w ≠ []) :
    ∃ c, (joinWords (w :: tail)).head? = some c ∧ c ∈ w := by
  obtain ⟨r, hr⟩ := joinWords_cons w tail
  obtain ⟨c, w', hcw⟩ := List.exists_cons_of_ne_nil hw
  refine ⟨c, ?_, by rw [hcw]; exact List.mem_cons_self _ _⟩
  rw [hr, hcw]
  rfl

theorem joinWords_getLast? (l : List (List Char)) (hne : l ≠ [])
    (hl : ∀ w ∈ l, w ≠ []) :
    ∃ c w, (joinWords l).getLast? = some c ∧ w ∈ l ∧ c ∈ w := by
  induction l with
  | nil => exact absurd rfl hne
  | cons w tail ih =>
      cases tail with
      | nil =>
          have hw : w ≠ [] := hl w (List.mem_cons_self _ _)
          refine ⟨w.getLast hw, w, ?_, List.mem_cons_self _ _, List.getLast_mem hw⟩
          exact List.getLast?_eq_getLast w hw
      | cons v vs =>
          have htail : ∀ x ∈ v :: vs, x ≠ [] := fun x hx => hl x (List.mem_cons_of_mem _ hx)
          have hj : joinWords (v :: vs) ≠ [] := joinWords_ne_nil _ (by simp) htail
          have e : joinWords (w :: v :: vs) = w ++ ' ' :: joinWords (v :: vs) := rfl
          obtain ⟨c, x, hcl, hxl, hcx⟩ := ih (by simp) htail
          refine ⟨c, x, ?_, List.mem_cons_of_mem _ hxl, hcx⟩
          rw [e, List.getLast?_append_of_ne_nil _ (by simp),
            getLast?_cons_ne_nil ' ' hj, hcl]

theorem getLast?_dropWhile (p : Char → Bool) :
    ∀ (l : List Char), l.dropWhile p ≠ [] → (l.dropWhile p).getLast? = l.getLast? := by
  intro l
  induction l with
  | nil => intro h; simp at h
  | cons c cs ih =>
      intro h
      rw [List.dropWhile_cons] at h ⊢
      cases hp : p c with
      | true =>
          rw [if_pos (by simp [hp])] at h ⊢
          have hcs : cs ≠ [] := by
            intro hnil
            subst hnil
            simp at h
          rw [ih h, getLast?_cons_ne_nil c hcs]
      | false =>
          rw [if_neg (by simp [hp])]

theorem head?_dropWhile_not (p : Char → Bool) :
    ∀ (l : List Char) (c : Char), (l.dropWhile p).head? = some c → p c = false := by
  intro l
  induction l with
  | nil => intro c h; simp at h
  | cons d cs ih =>
      intro c h
      rw [List.dropWhile_cons] at h
      cases hp : p d with
      | true =>
          rw [if_pos (by simp [hp])] at h
          exact ih c h
      | false =>
          rw [if_neg (by simp [hp])] at h
          simp only [List.head?_cons, Option.some.injEq] at h
          subst h
          exact hp

theorem dropWhile_eq_self_of_head (p : Char → Bool) (t : List Char)
    (h : ∀ c, t.head? = some c → p c = false) : t.dropWhile p = t := by
  cases t with
  | nil => rfl
  | cons c cs => rw [List.dropWhile_cons, if_neg (by simp [h c rfl])]

theorem trim_noBoundaryWS (s : List Char) : noBoundaryWS (trim s) := by
  constructor
  · intro c hc
    rw [trim, List.head?_reverse] at hc
    have hne : List.dropWhile isWS (s.dropWhile isWS).reverse ≠ [] := by
      intro hnil
      rw [hnil] at hc
      simp at hc
    rw [getLast?_dropWhile isWS _ hne, List.getLast?_reverse] at hc
    exact head?_dropWhile_not isWS s c hc
  · intro c hc
    rw [trim, List.getLast?_reverse] at hc
    exact head?_dropWhile_not isWS _ c hc

theorem trim_eq_self (s : List Char)
    (h1 : ∀ c, s.head? = some c → isWS c = false)
    (h2 : ∀ c, s.getLast? = some c → isWS c = false) : trim s = s := by
  have hh : ∀ c, (s.reverse).head? = some c → isWS c = false := by
    intro c hc
    rw [List.head?_reverse] at hc
    exact h2 c hc
  rw [trim, dropWhile_eq_self_of_head isWS s h1,
    dropWhile_eq_self_of_head isWS s.reverse hh, List.reverse_reverse]

theorem trim_joinWords (l : List (List Char)) (hne : l ≠ [])
    (hl : ∀ w ∈ l, w ≠ [] ∧ wsFree w) : trim (joinWords l) = joinWords l := by
  apply trim_eq_self
  · intro c hc
    cases l with
    | nil => exact absurd rfl hne
    | cons w tail =>
        obtain ⟨c', hc', hcw⟩ := joinWords_head? w tail (hl w (List.mem_cons_self _ _)).1
        rw [hc'] at hc
        injection hc with hc
        subst hc
        exact (hl w (List.mem_cons_self _ _)).2 c' hcw
  · intro c hc
    obtain ⟨c', x, hcl, hxl, hcx⟩ := joinWords_getLast? l hne (fun w h => (hl w h).1)
    rw [hcl] at hc
    injection hc with hc
    subst hc
    exact (hl x hxl).2 c' hcx

/-- Every chunk emitted from a whitespace-free buffer accounts for exactly
the buffer's non-empty words. -/
theorem wordsOf_emit (buf : List (List Char)) (hbuf : ∀ w ∈ buf, wsFree w) :
    wordsOf (trim (joinWords buf)) = buf.filter (fun w => !w.isEmpty) := by
  rw [wordsOf_trim, wordsOf_joinWords buf hbuf]

/-- A chunk emitted from a non-empty buffer of non-empty whitespace-free
words is good: it is untouched by `trim` and its words are exactly the
buffer. -/
theorem emit_chunk_good (buf : List (List Char)) (hne : buf ≠ [])
    (hl : ∀ w ∈ buf, w ≠ [] ∧ wsFree w) :
    trim (joinWords buf) = joinWords buf ∧
    wordsOf (joinWords buf) = buf ∧
    GoodChunk (joinWords buf) := by
  have ht := trim_joinWords buf hne hl
  have hw : wordsOf (joinWords buf) = buf := by
    rw [wordsOf_joinWords buf (fun w h => (hl w h).2)]
    refine List.filter_eq_self.mpr ?_
    intro w h
    have := (hl w h).1
    simp [List.isEmpty_iff, this]
  exact ⟨ht, hw, by rw [GoodChunk, hw]; exact ⟨hne, rfl⟩⟩

end JoinTrimLemmas

section WordAccounting

theorem flushOverflow_wordsAcc (st : TState)
    (hcw : ∀ w ∈ st.currentWords, wsFree w) :
    ((flushOverflow st).tweets.map wordsOf).flatten ++
        ((flushOverflow st).currentWords.filter (fun w => !w.isEmpty)) =
      (st.tweets.map wordsOf).flatten ++
        (st.currentWords.filter (fun w => !w.isEmpty)) ∧
    (∀ w ∈ (flushOverflow st).currentWords, wsFree w) := by
  rw [flushOverflow]
  by_cases hbr : st.lastSentenceBreak ≠ -1
  · rw [if_pos hbr]
    constructor
    · simp only [List.map_append, List.map_cons, List.map_nil, List.flatten_append,
        List.flatten_cons, List.flatten_nil, List.append_nil]
      rw [wordsOf_emit _ (fun w h => hcw w (List.mem_of_mem_take h))]
      rw [List.append_assoc, ← List.filter_append, List.take_append_drop]
    · intro w h
      exact hcw w (List.mem_of_mem_drop h)
  · rw [if_neg hbr]
    by_cases hne : st.currentWords ≠ []
    · rw [if_pos hne]
      constructor
      · simp only [List.map_append, List.map_cons, List.map_nil, List.flatten_append,
          List.flatten_cons, List.flatten_nil, List.append_nil, List.filter_nil]
        rw [wordsOf_emit _ hcw]
      · intro w h
        simp at h
    · rw [if_neg hne]
      exact ⟨rfl, hcw⟩

theorem stepWord_wordsAcc (m : Nat) (st : TState) (word : List Char)
    (hw : wsFree word) (hlen : word.length ≤ m)
    (hcw : ∀ w ∈ st.currentWords, wsFree w) :
    ((stepWord m st word).tweets.map wordsOf).flatten ++
        ((stepWord m st word).currentWords.filter (fun w => !w.isEmpty)) =
      ((st.tweets.map wordsOf).flatten ++
          (st.currentWords.filter (fun w => !w.isEmpty))) ++
        [word].filter (fun w => !w.isEmpty) ∧
    (∀ w ∈ (stepWord m st word).currentWords, wsFree w) := by
  rw [stepWord]
  by_cases hfit : (joinWords (st.currentWords ++ [word])).length ≤ m
  · rw [if_pos hfit]
    refine ⟨?_, ?_⟩
    · simp only [List.filter_append, List.append_assoc]
    · intro w h
      rcases List.mem_append.mp h with h | h
      · exact hcw w h
      · simp only [List.mem_singleton] at h
        subst h
        exact hw
  · rw [if_neg hfit, if_neg (by omega : ¬ word.length > m)]
    obtain ⟨hacc, hcw'⟩ := flushOverflow_wordsAcc st hcw
    refine ⟨?_, ?_⟩
    · simp only [List.filter_append]
      rw [← List.append_assoc, hacc]
    · intro w h
      rcases List.mem_append.mp h with h | h
      · exact hcw' w h
      · simp only [List.mem_singleton] at h
        subst h
        exact hw

theorem foldl_wordsAcc (m : Nat) :
    ∀ (ws : List (List Char)) (st : TState),
      (∀ w ∈ ws, wsFree w ∧ w.length ≤ m) →
      (∀ w ∈ st.currentWords, wsFree w) →
      ((ws.foldl (stepWord m) st).tweets.map wordsOf).flatten ++
          ((ws.foldl (stepWord m) st).currentWords.filter (fun w => !w.isEmpty)) =
        ((st.tweets.map wordsOf).flatten ++
            (st.currentWords.filter (fun w => !w.isEmpty))) ++
          ws.filter (fun w => !w.isEmpty) ∧
      (∀ w ∈ (ws.foldl (stepWord m) st).currentWords, wsFree w) := by
  intro ws
  induction ws with
  | nil =>
      intro st _ hcw
      exact ⟨by simp, hcw⟩
  | cons w ws ih =>
      intro st hws hcw
      have hw := hws w (List.mem_cons_self _ _)
      have hws' : ∀ x ∈ ws, wsFree x ∧ x.length ≤ m :=
        fun x hx => hws x (List.mem_cons_of_mem _ hx)
      obtain ⟨hstep, hcw1⟩ := stepWord_wordsAcc m st w hw.1 hw.2 hcw
      obtain ⟨hrest, hcw2⟩ := ih (stepWord m st w) hws' hcw1
      rw [List.foldl_cons]
      refine ⟨?_, hcw2⟩
      rw [hrest, hstep, List.filter_cons]
      cases hb : (!w.isEmpty) <;> simp [List.filter_cons, hb, List.append_assoc]

theorem createTweets_wordsAcc (text : List Char) (m : Nat)
    (hlen : ∀ w ∈ wordsOf text, w.length ≤ m) :
    ((createTweets text m).map wordsOf).flatten = wordsOf text := by
  have hwords : ∀ w ∈ splitWS text, wsFree w ∧ w.length ≤ m := by
    intro w hw
    refine ⟨splitWS_wsFree text w hw, ?_⟩
    by_cases hne : w = []
    · subst hne
      simp
    · refine hlen w ?_
      rw [wordsOf, List.mem_filter]
      exact ⟨hw, by simp [List.isEmpty_iff, hne]⟩
  obtain ⟨hacc, hcw⟩ := foldl_wordsAcc m (splitWS text) ⟨[], [], -1⟩ hwords
    (by intro w h; simp at h)
  simp only [List.map_nil, List.flatten_nil, List.filter_nil, List.nil_append] at hacc
  simp only [createTweets]
  by_cases hne : ((splitWS text).foldl (stepWord m) ⟨[], [], -1⟩).currentWords ≠ []
  · rw [if_pos hne]
    simp only [List.map_append, List.map_cons, List.map_nil, List.flatten_append,
      List.flatten_cons, List.flatten_nil, List.append_nil]
    rw [wordsOf_emit _ hcw]
    exact hacc
  · rw [if_neg hne]
    have hcwnil : ((splitWS text).foldl (stepWord m) ⟨[], [], -1⟩).currentWords = [] :=
      not_not.mp hne
    rw [hcwnil] at hacc
    simpa using hacc

end WordAccounting

/-- C2 fails as stated: when a single over-long word is split, the parts
become separate words of the output, so the input's word sequence is not
reproduced.  At `text = "Supercalifragilistic"`, `maxLength = 5` the
output's words are `["Super","calif","ragil","istic"]`, not the one
original word. -/
theorem c2_roundtrip_fails_on_split_word :
    ((createTweets (str "Supercalifragilistic") 5).map wordsOf).flatten ≠
      wordsOf (str "Supercalifragilistic") := by
  decide

/-- C2 as amended: if additionally every word (maximal non-whitespace
run) of the input has length ≤ maxLength — so no long-word splitting
occurs — then the concatenation of the chunks' word sequences is exactly
the input's word sequence: no word dropped, none duplicated, order
preserved. -/
theorem c2_word_roundtrip (text : List Char) (m : Nat) (hm : 1 ≤ m)
    (hlen : ∀ w ∈ wordsOf text, w.length ≤ m) :
    ((createTweets text m).map wordsOf).flatten = wordsOf text :=
  createTweets_wordsAcc text m hlen

/-- Witness for C2 (amended) at `text = "Hi there. Bye now."`,
`maxLength = 10`. -/
theorem c2_witness :
    (1 ≤ 10 ∧ ∀ w ∈ wordsOf (str "Hi there. Bye now."), w.length ≤ 10) ∧
    ((createTweets (str "Hi there. Bye now.") 10).map wordsOf).flatten =
      wordsOf (str "Hi there. Bye now.") :=
  ⟨⟨by decide, by decide⟩,
    c2_word_roundtrip (str "Hi there. Bye now.") 10 (by decide) (by decide)⟩

section BoundaryWhitespace

theorem wsFree_noBoundaryWS (t : List Char) (h : wsFree t) : noBoundaryWS t := by
  constructor
  · intro c hc
    exact h c (List.mem_of_mem_head? hc)
  · intro c hc
    exact h c (List.mem_of_mem_getLast? hc)

theorem splitLongWordAux_wsFree :
    ∀ (n : Nat) (w : List Char) (m : Nat), wsFree w →
      ∀ p ∈ splitLongWordAux n w m, wsFree p := by
  intro n
  induction n with
  | zero =>
      intro w m hw p hp
      simp [splitLongWordAux] at hp
  | succ n ih =>
      intro w m hw p hp
      cases w with
      | nil => simp [splitLongWordAux] at hp
      | cons c cs =>
          simp only [splitLongWordAux, List.mem_cons] at hp
          rcases hp with hp | hp
          · subst hp
            intro d hd
            exact hw d (List.mem_of_mem_take hd)
          · exact ih _ m (fun d hd => hw d (List.mem_of_mem_drop hd)) p hp

theorem splitLongWord_wsFree (w : List Char) (m : Nat) (hw : wsFree w) :
    ∀ p ∈ splitLongWord w m, wsFree p :=
  splitLongWordAux_wsFree w.length w m hw

theorem flushOverflow_inv10 (st : TState)
    (h1 : ∀ t ∈ st.tweets, noBoundaryWS t)
    (h2 : ∀ w ∈ st.currentWords, wsFree w) :
    (∀ t ∈ (flushOverflow st).tweets, noBoundaryWS t) ∧
    (∀ w ∈ (flushOverflow st).currentWords, wsFree w) := by
  rw [flushOverflow]
  by_cases hbr : st.lastSentenceBreak ≠ -1
  · rw [if_pos hbr]
    refine ⟨?_, fun w h => h2 w (List.mem_of_mem_drop h)⟩
    intro t ht
    rcases List.mem_append.mp ht with h | h
    · exact h1 t h
    · simp only [List.mem_singleton] at h
      subst h
      exact trim_noBoundaryWS _
  · rw [if_neg hbr]
    by_cases hne : st.currentWords ≠ []
    · rw [if_pos hne]
      refine ⟨?_, by intro w h; simp at h⟩
      intro t ht
      rcases List.mem_append.mp ht with h | h
      · exact h1 t h
      · simp only [List.mem_singleton] at h
        subst h
        exact trim_noBoundaryWS _
    · rw [if_neg hne]
      exact ⟨h1, h2⟩

theorem flushPush_inv10 (st : TState) (part : List Char) (hp : wsFree part)
    (h1 : ∀ t ∈ st.tweets, noBoundaryWS t)
    (h2 : ∀ w ∈ st.currentWords, wsFree w) :
    (∀ t ∈ (flushPush st part).tweets, noBoundaryWS t) ∧
    (∀ w ∈ (flushPush st part).currentWords, wsFree w) := by
  simp only [flushPush]
  by_cases hne : st.currentWords ≠ []
  · rw [if_pos hne]
    constructor
    · intro t ht
      rcases List.mem_append.mp ht with h | h
      · rcases List.mem_append.mp h with h' | h'
        · exact h1 t h'
        · simp only [List.mem_singleton] at h'
          subst h'
          exact trim_noBoundaryWS _
      · simp only [List.mem_singleton] at h
        subst h
        exact wsFree_noBoundaryWS _ hp
    · intro w h
      simp at h
  · rw [if_neg hne]
    constructor
    · intro t ht
      rcases List.mem_append.mp ht with h | h
      · exact h1 t h
      · simp only [List.mem_singleton] at h
        subst h
        exact wsFree_noBoundaryWS _ hp
    · exact h2

theorem processPart_inv10 (m : Nat) (st : TState) (idx : Nat) (part : List Char)
    (hp : wsFree part)
    (h1 : ∀ t ∈ st.tweets, noBoundaryWS t)
    (h2 : ∀ w ∈ st.currentWords, wsFree w) :
    (∀ t ∈ (processPart m st idx part).tweets, noBoundaryWS t) ∧
    (∀ w ∈ (processPart m st idx part).currentWords, wsFree w) := by
  rw [processPart]
  by_cases hc : idx = 0 ∧ st.currentWords ≠ []
  · rw [if_pos hc]
    by_cases hfit : (joinWords (st.currentWords ++ [part])).length ≤ m
    · rw [if_pos hfit]
      refine ⟨h1, ?_⟩
      intro w h
      rcases List.mem_append.mp h with h | h
      · exact h2 w h
      · simp only [List.mem_singleton] at h
        subst h
        exact hp
    · rw [if_neg hfit]
      exact flushPush_inv10 st part hp h1 h2
  · rw [if_neg hc]
    exact flushPush_inv10 st part hp h1 h2

theorem processParts_inv10 (m : Nat) :
    ∀ (parts : List (List Char)) (st : TState) (idx : Nat),
      (∀ p ∈ parts, wsFree p) →
      (∀ t ∈ st.tweets, noBoundaryWS t) →
      (∀ w ∈ st.currentWords, wsFree w) →
      (∀ t ∈ (processParts m st idx parts).tweets, noBoundaryWS t) ∧
      (∀ w ∈ (processParts m st idx parts).currentWords, wsFree w) := by
  intro parts
  induction parts with
  | nil =>
      intro st idx _ h1 h2
      exact ⟨h1, h2⟩
  | cons p ps ih =>
      intro st idx hps h1 h2
      have hp := hps p (List.mem_cons_self _ _)
      have hps' : ∀ q ∈ ps, wsFree q := fun q hq => hps q (List.mem_cons_of_mem _ hq)
      obtain ⟨g1, g2⟩ := processPart_inv10 m st idx p hp h1 h2
      exact ih (processPart m st idx p) (idx + 1) hps' g1 g2

theorem stepWord_inv10 (m : Nat) (st : TState) (word : List Char)
    (hw : wsFree word)
    (h1 : ∀ t ∈ st.tweets, noBoundaryWS t)
    (h2 : ∀ w ∈ st.currentWords, wsFree w) :
    (∀ t ∈ (stepWord m st word).tweets, noBoundaryWS t) ∧
    (∀ w ∈ (stepWord m st word).currentWords, wsFree w) := by
  rw [stepWord]
  by_cases hfit : (joinWords (st.currentWords ++ [word])).length ≤ m
  · rw [if_pos hfit]
    refine ⟨h1, ?_⟩
    intro w h
    rcases List.mem_append.mp h with h | h
    · exact h2 w h
    · simp only [List.mem_singleton] at h
      subst h
      exact hw
  · rw [if_neg hfit]
    obtain ⟨g1, g2⟩ := flushOverflow_inv10 st h1 h2
    by_cases hlong : word.length > m
    · rw [if_pos hlong]
      exact processParts_inv10 m (splitLongWord word m) (flushOverflow st) 0
        (splitLongWord_wsFree word m hw) g1 g2
    · rw [if_neg hlong]
      refine ⟨g1, ?_⟩
      intro w h
      rcases List.mem_append.mp h with h | h
      · exact g2 w h
      · simp only [List.mem_singleton] at h
        subst h
        exact hw

theorem foldl_inv10 (m : Nat) :
    ∀ (ws : List (List Char)) (st : TState),
      (∀ w ∈ ws, wsFree w) →
      (∀ t ∈ st.tweets, noBoundaryWS t) →
      (∀ w ∈ st.currentWords, wsFree w) →
      (∀ t ∈ (ws.foldl (stepWord m) st).tweets, noBoundaryWS t) ∧
      (∀ w ∈ (ws.foldl (stepWord m) st).currentWords, wsFree w) := by
  intro ws
  induction ws with
  | nil =>
      intro st _ h1 h2
      exact ⟨h1, h2⟩
  | cons w ws ih =>
      intro st hws h1 h2
      have hw := hws w (List.mem_cons_self _ _)
      have hws' : ∀ x ∈ ws, wsFree x := fun x hx => hws x (List.mem_cons_of_mem _ hx)
      obtain ⟨g1, g2⟩ := stepWord_inv10 m st w hw h1 h2
      rw [List.foldl_cons]
      exact ih (stepWord m st w) hws' g1 g2

end BoundaryWhitespace

/-- C10: no chunk of `createTweets` begins or ends with a whitespace
character: merged-word chunks are trimmed at emission, and standalone
long-word parts are slices of whitespace-free words. -/
theorem c10_chunks_no_boundary_whitespace (text : List Char) (m : Nat)
    (hm : 1 ≤ m) : ∀ t ∈ createTweets text m, noBoundaryWS t := by
  simp only [createTweets]
  obtain ⟨h1, h2⟩ := foldl_inv10 m (splitWS text) ⟨[], [], -1⟩ (splitWS_wsFree text)
    (by intro t h; simp at h) (by intro w h; simp at h)
  by_cases hne : ((splitWS text).foldl (stepWord m) ⟨[], [], -1⟩).currentWords ≠ []
  · rw [if_pos hne]
    intro t ht
    rcases List.mem_append.mp ht with h | h
    · exact h1 t h
    · simp only [List.mem_singleton] at h
      subst h
      exact trim_noBoundaryWS _
  · rw [if_neg hne]
    exact h1

/-- Witness for C10 at `text = " Hi there.  Bye now. "`, `maxLength = 10`. -/
theorem c10_witness :
    1 ≤ 10 ∧ ∀ t ∈ createTweets (str " Hi there.  Bye now. ") 10, noBoundaryWS t :=
  ⟨by decide,
    c10_chunks_no_boundary_whitespace (str " Hi there.  Bye now. ") 10 (by decide)⟩

section Idempotence

theorem flushOverflow_invB (st : TState) (P : List (List Char)) (h : InvB st P) :
    InvB (flushOverflow st) P ∧ (flushOverflow st).lastSentenceBreak = -1 := by
  obtain ⟨hG, hW, hA, hBr⟩ := h
  rw [flushOverflow]
  by_cases hbr : st.lastSentenceBreak ≠ -1
  · rw [if_pos hbr]
    have hi : st.lastSentenceBreak.toNat < st.currentWords.length := hBr hbr
    have hbufne : st.currentWords.take (st.lastSentenceBreak.toNat + 1) ≠ [] := by
      rw [Ne, List.take_eq_nil_iff]
      push_neg
      constructor
      · omega
      · intro hnil
        rw [hnil] at hi
        simp at hi
    have hbufel : ∀ w ∈ st.currentWords.take (st.lastSentenceBreak.toNat + 1),
        w ≠ [] ∧ wsFree w :=
      fun w hw => hW w (List.mem_of_mem_take hw)
    obtain ⟨ht, hwds, hgood⟩ := emit_chunk_good _ hbufne hbufel
    simp only [InvB]
    refine ⟨⟨?_, ?_, ?_, ?_⟩, trivial⟩
    · intro t htw
      rcases List.mem_append.mp htw with h | h
      · exact hG t h
      · simp only [List.mem_singleton] at h
        subst h
        rw [ht]
        exact hgood
    · intro w hw
      exact hW w (List.mem_of_mem_drop hw)
    · simp only [List.map_append, List.map_cons, List.map_nil, List.flatten_append,
        List.flatten_cons, List.flatten_nil, List.append_nil]
      rw [ht, hwds, List.append_assoc, List.take_append_drop]
      exact hA
    · intro hcontra
      exact absurd rfl hcontra
  · rw [if_neg hbr]
    by_cases hne : st.currentWords ≠ []
    · rw [if_pos hne]
      obtain ⟨ht, hwds, hgood⟩ := emit_chunk_good _ hne hW
      simp only [InvB]
      refine ⟨⟨?_, ?_, ?_, ?_⟩, trivial⟩
      · intro t htw
        rcases List.mem_append.mp htw with h | h
        · exact hG t h
        · simp only [List.mem_singleton] at h
          subst h
          rw [ht]
          exact hgood
      · intro w hw
        simp at hw
      · simp only [List.map_append, List.map_cons, List.map_nil, List.flatten_append,
          List.flatten_cons, List.flatten_nil, List.append_nil]
        rw [ht, hwds]
        exact hA
      · intro hcontra
        exact absurd rfl hcontra
    · rw [if_neg hne]
      simp only [InvB]
      exact ⟨⟨hG, hW, hA, fun hcontra => absurd rfl hcontra⟩, trivial⟩

theorem stepWord_invB (m : Nat) (st : TState) (P : List (List Char)) (word : List Char)
    (hne : word ≠ []) (hwf : wsFree word) (hlen : word.length ≤ m)
    (h : InvB st P) : InvB (stepWord m st word) (P ++ [word]) := by
  obtain ⟨hG, hW, hA, hBr⟩ := h
  rw [stepWord]
  by_cases hfit : (joinWords (st.currentWords ++ [word])).length ≤ m
  · rw [if_pos hfit]
    simp only [InvB]
    refine ⟨hG, ?_, ?_, ?_⟩
    · intro w hw
      rcases List.mem_append.mp hw with h | h
      · exact hW w h
      · simp only [List.mem_singleton] at h
        subst h
        exact ⟨hne, hwf⟩
    · rw [← List.append_assoc, hA]
    · cases hterm : endsWithTerminal word with
      | true =>
          simp only [hterm, if_true]
          intro _
          rw [List.length_append]
          simp
      | false =>
          simp only [hterm, Bool.false_eq_true, if_false]
          intro hb
          have := hBr hb
          rw [List.length_append]
          simp
          omega
  · rw [if_neg hfit, if_neg (by omega : ¬ word.length > m)]
    obtain ⟨⟨fG, fW, fA, _⟩, hfbr⟩ := flushOverflow_invB st P ⟨hG, hW, hA, hBr⟩
    simp only [InvB]
    refine ⟨fG, ?_, ?_, ?_⟩
    · intro w hw
      rcases List.mem_append.mp hw with h | h
      · exact fW w h
      · simp only [List.mem_singleton] at h
        subst h
        exact ⟨hne, hwf⟩
    · rw [← List.append_assoc, fA]
    · cases hterm : endsWithTerminal word with
      | true =>
          simp only [hterm, if_true]
          intro _
          rw [List.length_append]
          simp
      | false =>
          simp only [hterm, Bool.false_eq_true, if_false]
          intro hb
          rw [hfbr] at hb
          exact absurd rfl hb

theorem foldl_invB (m : Nat) :
    ∀ (ws : List (List Char)) (st : TState) (P : List (List Char)),
      (∀ w ∈ ws, w ≠ [] ∧ wsFree w ∧ w.length ≤ m) →
      InvB st P →
      InvB (ws.foldl (stepWord m) st) (P ++ ws) := by
  intro ws
  induction ws with
  | nil =>
      intro st P _ h
      simpa using h
  | cons w ws ih =>
      intro st P hws h
      have hw := hws w (List.mem_cons_self _ _)
      have hws' : ∀ x ∈ ws, x ≠ [] ∧ wsFree x ∧ x.length ≤ m :=
        fun x hx => hws x (List.mem_cons_of_mem _ hx)
      rw [List.foldl_cons]
      have hstep := stepWord_invB m st P w hw.1 hw.2.1 hw.2.2 h
      have := ih (stepWord m st w) (P ++ [w]) hws' hstep
      simpa [List.append_assoc] using this

theorem createTweets_chunks_good (text : List Char) (m : Nat)
    (hW : ∀ w ∈ splitWS text, w ≠ [] ∧ wsFree w ∧ w.length ≤ m) :
    (∀ t ∈ createTweets text m, GoodChunk t) ∧
    ((createTweets text m).map wordsOf).flatten = splitWS text := by
  have hInv : InvB ((splitWS text).foldl (stepWord m) ⟨[], [], -1⟩) (splitWS text) := by
    have h0 : InvB ⟨[], [], -1⟩ [] := by
      simp only [InvB]
      refine ⟨by intro t h; simp at h, by intro w h; simp at h, by simp, ?_⟩
      intro h
      exact absurd rfl h
    have := foldl_invB m (splitWS text) ⟨[], [], -1⟩ [] hW h0
    simpa using this
  obtain ⟨fG, fW, fA, _⟩ := hInv
  simp only [createTweets]
  by_cases hne : ((splitWS text).foldl (stepWord m) ⟨[], [], -1⟩).currentWords ≠ []
  · rw [if_pos hne]
    obtain ⟨ht, hwds, hgood⟩ := emit_chunk_good _ hne fW
    constructor
    · intro t htw
      rcases List.mem_append.mp htw with h | h
      · exact fG t h
      · simp only [List.mem_singleton] at h
        subst h
        rw [ht]
        exact hgood
    · simp only [List.map_append, List.map_cons, List.map_nil, List.flatten_append,
        List.flatten_cons, List.flatten_nil, List.append_nil]
      rw [ht, hwds]
      exact fA
  · rw [if_neg hne]
    have hcwnil := not_not.mp hne
    rw [hcwnil, List.append_nil] at fA
    exact ⟨fG, fA⟩

theorem joinWords_append (A B : List (List Char)) (hA : A ≠ []) (hB : B ≠ []) :
    joinWords (A ++ B) = joinWords A ++ ' ' :: joinWords B := by
  induction A with
  | nil => exact absurd rfl hA
  | cons a as ih =>
      cases as with
      | nil =>
          obtain ⟨b, bs, hb⟩ := List.exists_cons_of_ne_nil hB
          subst hb
          rfl
      | cons a' as' =>
          have e1 : (a :: a' :: as') ++ B = a :: ((a' :: as') ++ B) := rfl
          have e2 : (a' :: as') ++ B = a' :: (as' ++ B) := rfl
          rw [e1, e2]
          show a ++ ' ' :: joinWords (a' :: (as' ++ B)) = _
          rw [← e2, ih (by simp)]
          show _ = (a ++ ' ' :: joinWords (a' :: as')) ++ ' ' :: joinWords B
          simp [List.append_assoc]

theorem joinWords_flatten_words (cs : List (List Char))
    (hcs : ∀ c ∈ cs, GoodChunk c) :
    joinWords cs = joinWords ((cs.map wordsOf).flatten) := by
  induction cs with
  | nil => rfl
  | cons c tail ih =>
      have hc := hcs c (List.mem_cons_self _ _)
      have htail : ∀ x ∈ tail, GoodChunk x := fun x hx => hcs x (List.mem_cons_of_mem _ hx)
      cases tail with
      | nil =>
          simp only [List.map_cons, List.map_nil, List.flatten_cons, List.flatten_nil,
            List.append_nil]
          exact hc.2.symm
      | cons d ds =>
          have hd := htail d (List.mem_cons_self _ _)
          have e : joinWords (c :: d :: ds) = c ++ ' ' :: joinWords (d :: ds) := rfl
          have hBne : ((d :: ds).map wordsOf).flatten ≠ [] := by
            simp only [List.map_cons, List.flatten_cons]
            intro hnil
            rw [List.append_eq_nil] at hnil
            exact hd.1 hnil.1
          have e2 : ((c :: d :: ds).map wordsOf).flatten =
              wordsOf c ++ ((d :: ds).map wordsOf).flatten := by
            simp
          rw [e, ih htail, e2, joinWords_append (wordsOf c) _ hc.1 hBne, hc.2]

theorem splitWSAux_fields_ne_nil :
    ∀ (s : List Char) (acc : Option (List Char)),
      (∀ c, s.getLast? = some c → isWS c = false) →
      (acc = none → s ≠ []) →
      (acc = some [] → s ≠ [] ∧ ∀ c, s.head? = some c → isWS c = false) →
      ∀ w ∈ splitWSAux s acc, w ≠ [] := by
  intro s
  induction s with
  | nil =>
      intro acc _ hnone hsome w hw
      cases acc with
      | none => exact absurd rfl (hnone rfl)
      | some a =>
          cases a with
          | nil => exact absurd rfl (hsome rfl).1
          | cons c a' =>
              simp only [splitWSAux, List.mem_singleton] at hw
              subst hw
              simp
  | cons c cs ih =>
      intro acc hlast hnone hsome w hw
      cases hws : isWS c with
      | true =>
          have hcs : cs ≠ [] := by
            intro hnil
            subst hnil
            have := hlast c rfl
            rw [hws] at this
            exact Bool.noConfusion this
          have hlast' : ∀ d, cs.getLast? = some d → isWS d = false := by
            intro d hd
            refine hlast d ?_
            rw [getLast?_cons_ne_nil c hcs]
            exact hd
          cases acc with
          | none =>
              simp only [splitWSAux, hws, if_true] at hw
              exact ih none hlast' (fun _ => hcs) (by intro h; simp at h) w hw
          | some a =>
              cases a with
              | nil =>
                  have := (hsome rfl).2 c rfl
                  rw [hws] at this
                  exact Bool.noConfusion this
              | cons b a' =>
                  simp only [splitWSAux, hws, if_true, List.mem_cons] at hw
                  rcases hw with hw | hw
                  · subst hw
                    simp
                  · exact ih none hlast' (fun _ => hcs) (by intro h; simp at h) w hw
      | false =>
          have hlast' : ∀ d, cs.getLast? = some d → isWS d = false := by
            intro d hd
            by_cases hcs : cs = []
            · subst hcs
              simp at hd
            · exact hlast d (by rw [getLast?_cons_ne_nil c hcs]; exact hd)
          cases acc with
          | none =>
              simp only [splitWSAux, hws, Bool.false_eq_true, if_false] at hw
              exact ih (some [c]) hlast' (by intro h; simp at h)
                (by intro h; simp at h) w hw
          | some a =>
              simp only [splitWSAux, hws, Bool.false_eq_true, if_false] at hw
              exact ih (some (c :: a)) hlast' (by intro h; simp at h)
                (by intro h; simp at h) w hw

theorem splitWS_fields_ne_nil (text : List Char) (htrim : trim text = text)
    (hne : text ≠ []) : ∀ w ∈ splitWS text, w ≠ [] := by
  have hb := trim_noBoundaryWS text
  rw [htrim] at hb
  exact splitWSAux_fields_ne_nil text (some []) hb.2
    (by intro h; simp at h) (fun _ => ⟨hne, hb.1⟩)

theorem createTweets_congr (t1 t2 : List Char) (m : Nat)
    (h : splitWS t1 = splitWS t2) : createTweets t1 m = createTweets t2 m := by
  simp only [createTweets, h]

theorem createTweets_nil (m : Nat) : createTweets [] m = [[]] := by
  simp [createTweets, splitWS, splitWSAux, stepWord, joinWords, endsWithTerminal, trim]

end Idempotence

/-- C6 fails as stated: at `text = " ab c"`, `maxLength = 4` every chunk
of the output `["ab", "c"]` has length ≤ 4, yet re-running on the
single-space join `"ab c"` returns the single chunk `["ab c"]` — the
leading whitespace of the original input produced an empty word whose
phantom joining space forced an earlier cut. -/
theorem c6_resegmentation_unstable :
    (∀ t ∈ createTweets (str " ab c") 4, t.length ≤ 4) ∧
    createTweets (joinWords (createTweets (str " ab c") 4)) 4 ≠
      createTweets (str " ab c") 4 := by
  decide

/-- C6 as amended: if the input carries no leading or trailing
whitespace (it equals its own trim) and every word of the input has
length ≤ maxLength (so no long-word splitting occurs), then re-running
`createTweets` on the single-space join of its output returns exactly
the same chunks. -/
theorem c6_resegmentation_stable (text : List Char) (m : Nat) (hm : 1 ≤ m)
    (htrim : trim text = text)
    (hlen : ∀ w ∈ wordsOf text, w.length ≤ m) :
    createTweets (joinWords (createTweets text m)) m = createTweets text m := by
  by_cases hnil : text = []
  · subst hnil
    rw [createTweets_nil]
    show createTweets [] m = [[]]
    exact createTweets_nil m
  · have hfields : ∀ w ∈ splitWS text, w ≠ [] :=
      splitWS_fields_ne_nil text htrim hnil
    have hW : ∀ w ∈ splitWS text, w ≠ [] ∧ wsFree w ∧ w.length ≤ m := by
      intro w hw
      refine ⟨hfields w hw, splitWS_wsFree text w hw, ?_⟩
      refine hlen w ?_
      rw [wordsOf, List.mem_filter]
      exact ⟨hw, by simp [List.isEmpty_iff, hfields w hw]⟩
    obtain ⟨hGood, hFlat⟩ := createTweets_chunks_good text m hW
    have hjoin : joinWords (createTweets text m) = joinWords (splitWS text) := by
      rw [joinWords_flatten_words _ hGood, hFlat]
    have hsplit : splitWS (joinWords (splitWS text)) = splitWS text := by
      apply splitWS_joinWords
      · exact splitWSAux_ne_nil text (some [])
      · intro w hw
        exact ⟨hfields w hw, splitWS_wsFree text w hw⟩
    apply createTweets_congr
    rw [hjoin, hsplit]

/-- Witness for C6 (amended) at `text = "Hi there. Bye now."`,
`maxLength = 10`. -/
theorem c6_witness :
    (1 ≤ 10 ∧ trim (str "Hi there. Bye now.") = str "Hi there. Bye now." ∧
      ∀ w ∈ wordsOf (str "Hi there. Bye now."), w.length ≤ 10) ∧
    createTweets (joinWords (createTweets (str "Hi there. Bye now.") 10)) 10 =
      createTweets (str "Hi there. Bye now.") 10 :=
  ⟨⟨by decide, by decide, by decide⟩,
    c6_resegmentation_stable (str "Hi there. Bye now.") 10 (by decide)
      (by decide) (by decide)⟩

end ThreadCreator
